import Mathlib

/-!
# Verification of the `kv` heap-free core

A shallow embedding, in Lean 4, of the core runtime substrate of the `kv`
device-inspection CLI: the fixed-capacity `StackString` buffer (`src/stack.rs`),
the pattern matcher (`src/filter.rs`), the JSON writer and its escaping table
(`src/json.rs`), the file-reading helper (`src/io.rs`), and the command-line
parser (`src/cli.rs`).  Rust strings (`&str`, guaranteed valid UTF-8) are
modelled as `List Char`; raw byte buffers as `List Nat` with each entry a byte
value.  Machine integers that the claims touch (`usize` lengths, `u64` values)
stay within `Nat` since the source never exercises overflow on them.
-/

/-! ## UTF-8 encoding (the `&str`-to-bytes view used by `stack.rs`) -/

/-- The UTF-8 encoding of a single Unicode scalar value, as a list of byte
values.  Mirrors `char::encode_utf8` in Rust. -/
def utf8Bytes (c : Char) : List Nat :=
  let n := c.toNat
  if n < 0x80 then [n]
  else if n < 0x800 then [0xC0 + n / 64, 0x80 + n % 64]
  else if n < 0x10000 then [0xE0 + n / 4096, 0x80 + (n / 64) % 64, 0x80 + n % 64]
  else [0xF0 + n / 262144, 0x80 + (n / 4096) % 64, 0x80 + (n / 64) % 64, 0x80 + n % 64]

/-- The UTF-8 bytes of a string (a `&str`'s `as_bytes()` view). -/
def strBytes : List Char → List Nat
  | [] => []
  | c :: t => utf8Bytes c ++ strBytes t

/-- Byte length of a string: Rust's `str::len`. -/
def utf8Length (s : List Char) : Nat := (strBytes s).length

/-- A byte list is valid UTF-8 text exactly when it is the encoding of some
character sequence (`core::str::from_utf8` succeeds). -/
def ValidUtf8 (bs : List Nat) : Prop := ∃ cs : List Char, strBytes cs = bs

/-! ## `StackString<N>` (`src/stack.rs`)

The stored bytes `buf[0..len]` are modelled as the list `data`; `len` is
`data.length`.  The zero padding beyond `len` in the Rust array is never
observable through the public operations and is not modelled. -/

structure StackString (N : Nat) where
  data : List Nat
deriving DecidableEq, Repr

/-- `StackString::new` — the empty string. -/
def StackString.new (N : Nat) : StackString N := ⟨[]⟩

/-- `StackString::len`. -/
def StackString.len {N : Nat} (s : StackString N) : Nat := s.data.length

/-- `StackString::remaining` — remaining capacity `N - len`. -/
def StackString.remaining {N : Nat} (s : StackString N) : Nat := N - s.data.length

/-- `StackString::push_str`: copies `min(len(bytes), remaining)` bytes of the
argument into the buffer and returns whether everything fit. -/
def StackString.push_str {N : Nat} (s : StackString N) (t : List Char) :
    StackString N × Bool :=
  let bytes := strBytes t
  let toCopy := min bytes.length s.remaining
  (⟨s.data ++ bytes.take toCopy⟩, toCopy == bytes.length)

/-- `StackString::push`: encode the character into a 4-byte scratch buffer and
delegate to `push_str` on the encoded slice. -/
def StackString.push {N : Nat} (s : StackString N) (c : Char) :
    StackString N × Bool :=
  s.push_str [c]

/-- `StackString::from_str`: start empty, `push_str` the argument (truncating). -/
def StackString.from_str (N : Nat) (t : List Char) : StackString N :=
  ((StackString.new N).push_str t).1

/-- `StackString::clear`. -/
def StackString.clear {N : Nat} (_ : StackString N) : StackString N := ⟨[]⟩

/-! ## `filter.rs` -/

/-- ASCII case folding of one character.  The source uses Rust's Unicode
`str::to_lowercase`; on the ASCII range exercised by every claim the two
mappings coincide. -/
def lowerChar (c : Char) : Char :=
  if 'A' ≤ c ∧ c ≤ 'Z' then Char.ofNat (c.toNat + 32) else c

/-- Case folding of a whole string (`str::to_lowercase`, ASCII fragment). -/
def lowerList (s : List Char) : List Char := s.map lowerChar

/-- Substring containment: Rust's `str::contains(&str)`.  The empty needle is
a prefix of everything, so it is always contained. -/
def containsSub (hay pat : List Char) : Bool :=
  pat.isPrefixOf hay ||
    match hay with
    | [] => false
    | _ :: t => containsSub t pat

/-- `filter::matches_any` (`src/filter.rs:68-74`): in case-insensitive mode each
field is lower-cased and searched for the (pre-lowered) pattern; otherwise each
field is searched directly.  `any` over the fields short-circuits. -/
def matches_any (fields : List (List Char)) (pat : List Char)
    (case_insensitive : Bool) : Bool :=
  if case_insensitive then
    fields.any fun f => containsSub (lowerList f) pat
  else
    fields.any fun f => containsSub f pat

/-! ## `io.rs` -/

/-- JSON/Rust whitespace recognizer for `str::trim` (space, tab, newline,
carriage return — the ASCII whitespace that sysfs content can contain). -/
def isWsChar (c : Char) : Bool := c == ' ' || c == '\n' || c == '\t' || c == '\r'

/-- `str::trim`: drop whitespace from both ends. -/
def trimList (s : List Char) : List Char :=
  ((s.dropWhile isWsChar).reverse.dropWhile isWsChar).reverse

/-- `io::read_file_string` (`src/io.rs:23-39`).  The filesystem is abstracted
as a function from path to the result of `fs::read_to_string`: `none` for any
I/O or encoding failure, `some content` on success.  The function trims the
content and collapses the empty result to `none`; errors carry no detail. -/
def read_file_string (fs : String → Option (List Char)) (path : String) :
    Option (List Char) :=
  match fs path with
  | some s =>
      let trimmed := trimList s
      if trimmed.isEmpty then none else some trimmed
  | none => none

/-! ## `cli.rs` -/

/-- `cli::GlobalOptions` (`src/cli.rs:37-54`). -/
structure GlobalOptions where
  json : Bool := false
  pretty : Bool := false
  verbose : Bool := false
  human : Bool := false
  help : Bool := false
  filter : Option (List Char) := none
  filter_case_insensitive : Bool := false
  debug : Bool := false
deriving DecidableEq, Repr

/-- `cli::MAX_FILTER_LEN`. -/
def MAX_FILTER_LEN : Nat := 1024

/-- `cli::sanitize_filter_pattern`: patterns longer than `MAX_FILTER_LEN`
bytes are truncated to `MAX_FILTER_LEN` characters (the warning on stderr is
not modelled). -/
def sanitize_filter_pattern (p : List Char) : List Char :=
  if utf8Length p > MAX_FILTER_LEN then p.take MAX_FILTER_LEN else p

/-- The body of the combined-short-flag loop (`src/cli.rs:109-123`): set each
recognized flag in turn; on the first unknown letter, append the whole original
token to `remaining` and stop (`break`). -/
def applyFlags (cs : List Char) (o : GlobalOptions) (tok : List Char)
    (rem : List (List Char)) : GlobalOptions × List (List Char) :=
  match cs with
  | [] => (o, rem)
  | c :: t =>
    if c = 'j' then applyFlags t { o with json := true } tok rem
    else if c = 'p' then applyFlags t { o with pretty := true } tok rem
    else if c = 'v' then applyFlags t { o with verbose := true } tok rem
    else if c = 'h' then applyFlags t { o with human := true } tok rem
    else if c = 'H' then applyFlags t { o with help := true } tok rem
    else if c = 'D' then applyFlags t { o with debug := true } tok rem
    else (o, rem ++ [tok])

/-- The `while let` loop of `GlobalOptions::parse` (`src/cli.rs:75-129`),
scanning the argument tokens left to right. -/
def parseLoop (args : List (List Char)) (o : GlobalOptions)
    (rem : List (List Char)) : GlobalOptions × List (List Char) :=
  match args with
  | [] => (o, rem)
  | a :: rest =>
    if a = "-j".toList ∨ a = "--json".toList then
      parseLoop rest { o with json := true } rem
    else if a = "-p".toList ∨ a = "--pretty".toList then
      parseLoop rest { o with pretty := true } rem
    else if a = "-v".toList ∨ a = "--verbose".toList then
      parseLoop rest { o with verbose := true } rem
    else if a = "-h".toList ∨ a = "--human".toList then
      parseLoop rest { o with human := true } rem
    else if a = "-H".toList ∨ a = "--help".toList then
      parseLoop rest { o with help := true } rem
    else if a = "-D".toList ∨ a = "--debug".toList then
      parseLoop rest { o with debug := true } rem
    else if a = "-f".toList ∨ a = "--filter".toList then
      match rest with
      | p :: rest2 =>
          parseLoop rest2
            { o with filter := some (sanitize_filter_pattern p),
                     filter_case_insensitive := false } rem
      | [] => (o, rem)
    else if a = "-F".toList ∨ a = "--ifilter".toList then
      match rest with
      | p :: rest2 =>
          parseLoop rest2
            { o with filter := some (lowerList (sanitize_filter_pattern p)),
                     filter_case_insensitive := true } rem
      | [] => (o, rem)
    else
      match a with
      | '-' :: c1 :: cs =>
        if c1 ≠ '-' ∧ utf8Length a > 2 then
          if (c1 :: cs).contains 'f' ∨ (c1 :: cs).contains 'F' then
            parseLoop rest o (rem ++ [a])
          else
            let (o2, rem2) := applyFlags (c1 :: cs) o a rem
            parseLoop rest o2 rem2
        else parseLoop rest o (rem ++ [a])
      | _ => parseLoop rest o (rem ++ [a])

/-- `GlobalOptions::parse` (`src/cli.rs:61-132`): the `KV_DEBUG` environment
check is abstracted as the `kvDebug` argument. -/
def GlobalOptions.parse (kvDebug : Bool) (args : List (List Char)) :
    GlobalOptions × List (List Char) :=
  parseLoop args { debug := kvDebug } []

/-- `cli::Invocation` (`src/cli.rs:137-144`). -/
structure Invocation where
  subcommand : Option (List Char)
  options : GlobalOptions
  args : List (List Char)
deriving DecidableEq, Repr

/-- `Invocation::parse_from` (`src/cli.rs:158-221`): skip the program name,
handle the top-level `--help`/`-H`/`--version`/`-V`/`help` tokens, take the
first non-flag token as the subcommand, and hand the rest to
`GlobalOptions::parse`. -/
def Invocation.parse_from (kvDebug : Bool) (argv : List (List Char)) :
    Invocation :=
  let args := argv.drop 1
  match args with
  | [] => ⟨none, {}, []⟩
  | first :: rest =>
    if first = "--help".toList ∨ first = "-H".toList ∨
       first = "--version".toList ∨ first = "-V".toList then
      ⟨some first,
       { help := first = "--help".toList ∨ first = "-H".toList }, rest⟩
    else if first = "help".toList then
      ⟨some "help".toList, { help := true }, rest⟩
    else
      let subcommand := match first with
        | '-' :: _ => none
        | _ => some first
      let remaining := if subcommand.isSome then rest else first :: rest
      let (options, extras) := GlobalOptions.parse kvDebug remaining
      ⟨subcommand, options, extras⟩

/-! ## `json.rs`: escaping -/

/-- `json::EscapeType` (`src/json.rs:271-291`). -/
inductive EscapeType where
  | none
  | backspace
  | tab
  | newline
  | formFeed
  | carriageReturn
  | quote
  | backslash
  | unicode
deriving DecidableEq, Repr

/-- `json::ESCAPE_TABLE` (`src/json.rs:295-317`): classification of the 128
ASCII byte values. -/
def ESCAPE_TABLE : List EscapeType :=
  let u := EscapeType.unicode
  let n := EscapeType.none
  [u, u, u, u, u, u, u, u,
   .backspace, .tab, .newline, u, .formFeed, .carriageReturn, u, u,
   u, u, u, u, u, u, u, u,
   u, u, u, u, u, u, u, u,
   n, n, .quote, n, n, n, n, n,
   n, n, n, n, n, n, n, n,
   n, n, n, n, n, n, n, n,
   n, n, n, n, n, n, n, n,
   n, n, n, n, n, n, n, n,
   n, n, n, n, n, n, n, n,
   n, n, n, n, n, n, n, n,
   n, n, n, n, .backslash, n, n, n,
   n, n, n, n, n, n, n, n,
   n, n, n, n, n, n, n, n,
   n, n, n, n, n, n, n, n,
   n, n, n, n, n, n, n, u]

/-- Table lookup for an ASCII byte value. -/
def classifyByte (b : Nat) : EscapeType := ESCAPE_TABLE.getD b EscapeType.unicode

/-- The escape sequence one character contributes to the output in
`escape_string_into` (`src/json.rs:326-350`): ASCII characters go through the
table, everything else passes through unescaped. -/
def escapeChar (c : Char) : List Char :=
  if c.toNat < 128 then
    match classifyByte c.toNat with
    | .none => [c]
    | .backspace => ['\\', 'b']
    | .tab => ['\\', 't']
    | .newline => ['\\', 'n']
    | .formFeed => ['\\', 'f']
    | .carriageReturn => ['\\', 'r']
    | .quote => ['\\', '"']
    | .backslash => ['\\', '\\']
    | .unicode =>
        ['\\', 'u', '0', '0', Nat.digitChar (c.toNat / 16), Nat.digitChar (c.toNat % 16)]
  else [c]

/-- `json::escape_string_into`: escape every character in order. -/
def escapeList : List Char → List Char
  | [] => []
  | c :: t => escapeChar c ++ escapeList t

/-! ## A standard JSON string parser (reference decoder)

This is not part of the repository: it is the reference decoder for JSON
string literals from RFC 8259 used to state the round-trip claim.  It accepts
a string body terminated by an unescaped `"`, decoding the named escapes,
`\uXXXX` escapes (with surrogate pairs), and rejecting raw control
characters. -/

/-- Value of one hexadecimal digit, upper or lower case. -/
def hexDigitVal (c : Char) : Option Nat :=
  if '0' ≤ c ∧ c ≤ '9' then some (c.toNat - '0'.toNat)
  else if 'a' ≤ c ∧ c ≤ 'f' then some (c.toNat - 'a'.toNat + 10)
  else if 'A' ≤ c ∧ c ≤ 'F' then some (c.toNat - 'A'.toNat + 10)
  else none

/-- Decoding of the one-character (named) escapes. -/
def namedEscape (e : Char) : Option Char :=
  if e = '"' then some '"'
  else if e = '\\' then some '\\'
  else if e = '/' then some '/'
  else if e = 'b' then some (Char.ofNat 8)
  else if e = 'f' then some (Char.ofNat 12)
  else if e = 'n' then some '\n'
  else if e = 'r' then some '\r'
  else if e = 't' then some '\t'
  else none

/-- Read four hexadecimal digits off the front of the input. -/
def hex4At : List Char → Option (Nat × List Char)
  | a :: b :: c :: d :: t =>
    match hexDigitVal a, hexDigitVal b, hexDigitVal c, hexDigitVal d with
    | some va, some vb, some vc, some vd =>
        some ((((va * 16 + vb) * 16 + vc) * 16 + vd), t)
    | _, _, _, _ => none
  | _ => none

/-- Decode the payload of a `\u` escape (the four hex digits and, for a high
surrogate, the mandatory following low-surrogate escape). -/
def uEscape (l : List Char) : Option (Char × List Char) :=
  match hex4At l with
  | some (code, t) =>
    if code < 0xD800 ∨ 0xE000 ≤ code then some (Char.ofNat code, t)
    else if code < 0xDC00 then
      match t with
      | e1 :: e2 :: t3 =>
        if e1 = '\\' ∧ e2 = 'u' then
          match hex4At t3 with
          | some (lo, t2) =>
            if 0xDC00 ≤ lo ∧ lo < 0xE000 then
              some (Char.ofNat (0x10000 + (code - 0xD800) * 0x400 + (lo - 0xDC00)), t2)
            else none
          | none => none
        else none
      | _ => none
    else none
  | none => none

/-- Decode a JSON string body; `fuel` bounds the recursion depth and every
step consumes at least one input character, so callers pass the input
length. -/
def decodeBodyF : Nat → List Char → Option (List Char)
  | 0, _ => none
  | _ + 1, [] => none
  | fuel + 1, c :: rest =>
    if c = '"' then (if rest.isEmpty then some [] else none)
    else if c = '\\' then
      match rest with
      | [] => none
      | e :: t =>
        if e = 'u' then
          match uEscape t with
          | some (ch, t2) => (decodeBodyF fuel t2).map (ch :: ·)
          | none => none
        else
          match namedEscape e with
          | some ch => (decodeBodyF fuel t).map (ch :: ·)
          | none => none
    else if c.toNat < 0x20 then none
    else (decodeBodyF fuel rest).map (c :: ·)

/-- Decode a complete JSON string literal (opening quote, body, closing
quote, nothing after). -/
def jsonStringDecode (l : List Char) : Option (List Char) :=
  match l with
  | '"' :: rest => decodeBodyF rest.length rest
  | _ => none

/-! ## `json.rs`: the writer -/

/-- Decimal digits of a natural number — the text produced by Rust's
`write!("{}", n)` / `itoa` for an unsigned integer. -/
def natRepr (n : Nat) : List Char :=
  if _h : n < 10 then [Nat.digitChar n]
  else natRepr (n / 10) ++ [Nat.digitChar (n % 10)]
decreasing_by exact Nat.div_lt_self (by omega) (by omega)

/-- `json::JsonWriter` (`src/json.rs:22-28`): the output `String` is the
`output` list; `pretty`, `indent_level` and `needs_comma` as in the source. -/
structure JsonWriter where
  output : List Char
  pretty : Bool
  indentLevel : Nat
  needsComma : Bool
deriving DecidableEq, Repr

/-- Indentation text at a given level: `indent_level` copies of two spaces
when pretty, nothing otherwise. -/
def indentAt (pretty : Bool) (lvl : Nat) : List Char :=
  if pretty then List.replicate (2 * lvl) ' ' else []

/-- What `write_indent` appends. -/
def JsonWriter.indentFrag (w : JsonWriter) : List Char := indentAt w.pretty w.indentLevel

/-- What `write_newline` appends. -/
def JsonWriter.nlFrag (w : JsonWriter) : List Char := if w.pretty then ['\n'] else []

/-- The space after `:` in pretty mode. -/
def JsonWriter.spaceFrag (w : JsonWriter) : List Char := if w.pretty then [' '] else []

/-- `JsonWriter::new`. -/
def JsonWriter.new (pretty : Bool) : JsonWriter := ⟨[], pretty, 0, false⟩

/-- `JsonWriter::finish` — hands back the accumulated output `String`. -/
def JsonWriter.finish (w : JsonWriter) : List Char := w.output

/-- `JsonWriter::write_separator` (`src/json.rs:67-73`). -/
def JsonWriter.write_separator (w : JsonWriter) : JsonWriter :=
  if w.needsComma then
    { w with output := w.output ++ ',' :: w.nlFrag, needsComma := false }
  else { w with needsComma := false }

/-- `JsonWriter::begin_object` (`src/json.rs:76-83`). -/
def JsonWriter.begin_object (w : JsonWriter) : JsonWriter :=
  let w1 := w.write_separator
  { w1 with output := w1.output ++ w1.indentFrag ++ ['{'] ++ w1.nlFrag,
            indentLevel := w1.indentLevel + 1, needsComma := false }

/-- `JsonWriter::end_object` (`src/json.rs:86-92`): newline, dedent, indent at
the new level, closing brace. -/
def JsonWriter.end_object (w : JsonWriter) : JsonWriter :=
  { w with output := w.output ++ w.nlFrag ++ indentAt w.pretty (w.indentLevel - 1) ++ ['}'],
           indentLevel := w.indentLevel - 1, needsComma := true }

/-- `JsonWriter::begin_array`. -/
def JsonWriter.begin_array (w : JsonWriter) : JsonWriter :=
  let w1 := w.write_separator
  { w1 with output := w1.output ++ w1.indentFrag ++ ['['] ++ w1.nlFrag,
            indentLevel := w1.indentLevel + 1, needsComma := false }

/-- `JsonWriter::end_array`. -/
def JsonWriter.end_array (w : JsonWriter) : JsonWriter :=
  { w with output := w.output ++ w.nlFrag ++ indentAt w.pretty (w.indentLevel - 1) ++ [']'],
           indentLevel := w.indentLevel - 1, needsComma := true }

/-- `JsonWriter::key` (`src/json.rs:116-126`). -/
def JsonWriter.key (w : JsonWriter) (name : List Char) : JsonWriter :=
  let w1 := w.write_separator
  { w1 with output := w1.output ++ w1.indentFrag ++
              '"' :: escapeList name ++ '"' :: ':' :: w1.spaceFrag,
            needsComma := false }

/-- `JsonWriter::value_string`. -/
def JsonWriter.value_string (w : JsonWriter) (v : List Char) : JsonWriter :=
  { w with output := w.output ++ '"' :: escapeList v ++ ['"'], needsComma := true }

/-- `JsonWriter::value_u64`. -/
def JsonWriter.value_u64 (w : JsonWriter) (n : Nat) : JsonWriter :=
  { w with output := w.output ++ natRepr n, needsComma := true }

/-- `JsonWriter::value_bool`. -/
def JsonWriter.value_bool (w : JsonWriter) (b : Bool) : JsonWriter :=
  { w with output := w.output ++ (if b then "true".toList else "false".toList),
           needsComma := true }

/-- `JsonWriter::value_null`. -/
def JsonWriter.value_null (w : JsonWriter) : JsonWriter :=
  { w with output := w.output ++ "null".toList, needsComma := true }

/-- `JsonWriter::field_str` = `key` then `value_string`. -/
def JsonWriter.field_str (w : JsonWriter) (k v : List Char) : JsonWriter :=
  (w.key k).value_string v

/-- `JsonWriter::field_u64`. -/
def JsonWriter.field_u64 (w : JsonWriter) (k : List Char) (n : Nat) : JsonWriter :=
  (w.key k).value_u64 n

/-- `JsonWriter::field_bool`. -/
def JsonWriter.field_bool (w : JsonWriter) (k : List Char) (b : Bool) : JsonWriter :=
  (w.key k).value_bool b

/-- `JsonWriter::field_object` (`src/json.rs:202-209`): key, then an opening
brace with no separator or indent. -/
def JsonWriter.field_object (w : JsonWriter) (k : List Char) : JsonWriter :=
  let w1 := w.key k
  { w1 with output := w1.output ++ ['{'] ++ w1.nlFrag,
            indentLevel := w1.indentLevel + 1, needsComma := false }

/-- `JsonWriter::end_field_object` — its body is identical to `end_object`. -/
def JsonWriter.end_field_object (w : JsonWriter) : JsonWriter := w.end_object

/-- `JsonWriter::field_array`. -/
def JsonWriter.field_array (w : JsonWriter) (k : List Char) : JsonWriter :=
  let w1 := w.key k
  { w1 with output := w1.output ++ ['['] ++ w1.nlFrag,
            indentLevel := w1.indentLevel + 1, needsComma := false }

/-- `JsonWriter::end_field_array` — its body is identical to `end_array`. -/
def JsonWriter.end_field_array (w : JsonWriter) : JsonWriter := w.end_array

/-- `JsonWriter::array_string` (`src/json.rs:240-247`). -/
def JsonWriter.array_string (w : JsonWriter) (v : List Char) : JsonWriter :=
  let w1 := w.write_separator
  { w1 with output := w1.output ++ w1.indentFrag ++ '"' :: escapeList v ++ ['"'],
            needsComma := true }

/-- `JsonWriter::array_object_begin` — its body is identical to `begin_object`. -/
def JsonWriter.array_object_begin (w : JsonWriter) : JsonWriter := w.begin_object

/-- `JsonWriter::array_object_end` — its body is identical to `end_object`. -/
def JsonWriter.array_object_end (w : JsonWriter) : JsonWriter := w.end_object

/-- One public writer call, reified so that call sequences can be quantified
over. -/
inductive WriterOp where
  | beginObject
  | endObject
  | beginArray
  | endArray
  | key (name : List Char)
  | valueString (v : List Char)
  | valueU64 (n : Nat)
  | valueBool (b : Bool)
  | valueNull
  | fieldStr (k v : List Char)
  | fieldU64 (k : List Char) (n : Nat)
  | fieldBool (k : List Char) (b : Bool)
  | fieldObject (k : List Char)
  | endFieldObject
  | fieldArray (k : List Char)
  | endFieldArray
  | arrayString (v : List Char)
  | arrayObjectBegin
  | arrayObjectEnd
deriving DecidableEq, Repr

/-- Apply one writer call. -/
def applyOp (o : WriterOp) (w : JsonWriter) : JsonWriter :=
  match o with
  | .beginObject => w.begin_object
  | .endObject => w.end_object
  | .beginArray => w.begin_array
  | .endArray => w.end_array
  | .key n => w.key n
  | .valueString v => w.value_string v
  | .valueU64 n => w.value_u64 n
  | .valueBool b => w.value_bool b
  | .valueNull => w.value_null
  | .fieldStr k v => w.field_str k v
  | .fieldU64 k n => w.field_u64 k n
  | .fieldBool k b => w.field_bool k b
  | .fieldObject k => w.field_object k
  | .endFieldObject => w.end_field_object
  | .fieldArray k => w.field_array k
  | .endFieldArray => w.end_field_array
  | .arrayString v => w.array_string v
  | .arrayObjectBegin => w.array_object_begin
  | .arrayObjectEnd => w.array_object_end

/-- Run a sequence of writer calls. -/
def runOps (ops : List WriterOp) (w : JsonWriter) : JsonWriter :=
  ops.foldl (fun w o => applyOp o w) w

/-! ## Properly nested call sequences

`JVal` is the shape of a document emitted through the writer's public
interface: objects are sequences of `key`/`field_*` calls, arrays hold
strings (`array_string`), objects (`array_object_begin`/`end`) or nested
arrays (`begin_array`/`end_array`).  `emitElem`/`emitMember` replay the
corresponding properly nested call sequence. -/

inductive JVal where
  | vstr (s : List Char)
  | vnum (n : Nat)
  | vbool (b : Bool)
  | vnull
  | vobj (fields : List (List Char × JVal))
  | varr (elems : List JVal)

mutual

/-- A value is emittable in array-element position when the writer has a
separator-aware call for it: strings, objects and arrays. -/
def elemOK : JVal → Bool
  | .vstr _ => true
  | .vobj fs => fieldsOK fs
  | .varr es => elemsOK es
  | _ => false

/-- A value is emittable after a `key` in any case; containers recurse. -/
def valOK : JVal → Bool
  | .vobj fs => fieldsOK fs
  | .varr es => elemsOK es
  | _ => true

/-- All field values of an object are emittable. -/
def fieldsOK : List (List Char × JVal) → Bool
  | [] => true
  | (_, v) :: t => valOK v && fieldsOK t

/-- All elements of an array are emittable in element position. -/
def elemsOK : List JVal → Bool
  | [] => true
  | v :: t => elemOK v && elemsOK t

end

mutual

/-- Emit `key k` followed by exactly one value (a `field_*` helper call). -/
def emitMember (k : List Char) (v : JVal) (w : JsonWriter) : JsonWriter :=
  match v with
  | .vstr s => w.field_str k s
  | .vnum n => w.field_u64 k n
  | .vbool b => w.field_bool k b
  | .vnull => (w.key k).value_null
  | .vobj fs => (emitMembers fs (w.field_object k)).end_field_object
  | .varr es => (emitElems es (w.field_array k)).end_field_array

/-- Emit the members of an object in order. -/
def emitMembers (fs : List (List Char × JVal)) (w : JsonWriter) : JsonWriter :=
  match fs with
  | [] => w
  | (k, v) :: t => emitMembers t (emitMember k v w)

/-- Emit one array element through the element-position calls. -/
def emitElem (v : JVal) (w : JsonWriter) : JsonWriter :=
  match v with
  | .vstr s => w.array_string s
  | .vobj fs => (emitMembers fs w.array_object_begin).array_object_end
  | .varr es => (emitElems es w.begin_array).end_array
  | _ => w

/-- Emit the elements of an array in order. -/
def emitElems (es : List JVal) (w : JsonWriter) : JsonWriter :=
  match es with
  | [] => w
  | v :: t => emitElems t (emitElem v w)

end

/-! ## JSON syntax (RFC 8259 grammar over character lists)

A derivation-style grammar: `IsJson l` holds when `l` is a JSON value,
`IsElement` a value with surrounding whitespace, `IsMembers`/`IsElements` the
comma-separated interiors of objects/arrays.  This is the formal meaning of
"syntactically valid JSON: balanced delimiters, no trailing or missing
commas". -/

/-- Whitespace-only text (insignificant between JSON tokens). -/
def WsOnly (l : List Char) : Prop := ∀ c ∈ l, isWsChar c = true

/-- Acceptable JSON string-literal body: no raw quote, no raw control
character, backslash only as a named escape or a `\uXXXX` escape. -/
def goodBody : List Char → Bool
  | [] => true
  | c :: rest =>
    if c = '\\' then
     (match rest with
      | [] => false
      | e :: t =>
        if e = 'u' then
          match t with
          | a :: b :: c2 :: d :: t2 =>
            (hexDigitVal a).isSome && (hexDigitVal b).isSome &&
            (hexDigitVal c2).isSome && (hexDigitVal d).isSome && goodBody t2
          | _ => false
        else
          (e = '"' || e = '\\' || e = '/' || e = 'b' || e = 'f' ||
           e = 'n' || e = 'r' || e = 't') && goodBody t)
    else if c = '"' then false
    else decide (0x20 ≤ c.toNat) && goodBody rest

/-- A JSON string literal: quote, acceptable body, quote. -/
inductive IsStringLit : List Char → Prop where
  | mk (body : List Char) : goodBody body = true → IsStringLit ('"' :: body ++ ['"'])

/-- A JSON number in the integer form the writer emits: nonempty digits with
no leading zero (except the number 0 itself). -/
def IsNumLit (l : List Char) : Prop :=
  l ≠ [] ∧ (∀ c ∈ l, c.isDigit = true) ∧ (l.head? = some '0' → l = ['0'])

mutual

inductive IsJson : List Char → Prop where
  | str {l : List Char} : IsStringLit l → IsJson l
  | num {l : List Char} : IsNumLit l → IsJson l
  | tru : IsJson ['t', 'r', 'u', 'e']
  | fls : IsJson ['f', 'a', 'l', 's', 'e']
  | nul : IsJson ['n', 'u', 'l', 'l']
  | objEmpty {w : List Char} : WsOnly w → IsJson ('{' :: w ++ ['}'])
  | objMembers {m : List Char} : IsMembers m → IsJson ('{' :: m ++ ['}'])
  | arrEmpty {w : List Char} : WsOnly w → IsJson ('[' :: w ++ [']'])
  | arrElems {e : List Char} : IsElements e → IsJson ('[' :: e ++ [']'])

inductive IsMember : List Char → Prop where
  | mk {w1 k w2 e : List Char} : WsOnly w1 → IsStringLit k → WsOnly w2 →
      IsElement e → IsMember (w1 ++ k ++ w2 ++ ':' :: e)

inductive IsMembers : List Char → Prop where
  | single {m : List Char} : IsMember m → IsMembers m
  | cons {m ms : List Char} : IsMember m → IsMembers ms → IsMembers (m ++ ',' :: ms)

inductive IsElement : List Char → Prop where
  | mk {w1 v w2 : List Char} : WsOnly w1 → IsJson v → WsOnly w2 →
      IsElement (w1 ++ v ++ w2)

inductive IsElements : List Char → Prop where
  | single {e : List Char} : IsElement e → IsElements e
  | cons {e es : List Char} : IsElement e → IsElements es → IsElements (e ++ ',' :: es)

end

/-- The comma `write_separator` owes before the next sibling. -/
def JsonWriter.sepFrag (w : JsonWriter) : List Char := if w.needsComma then [','] else []

/-- The newline `write_separator` appends after that comma in pretty mode. -/
def JsonWriter.padNl (w : JsonWriter) : List Char := if w.needsComma then w.nlFrag else []

/-- Specification of emitting one object member from any writer state: the
output grows by the owed comma followed by a grammatical `member`, the mode
and level are untouched, and a comma is owed afterwards. -/
def MemberSpec (k : List Char) (v : JVal) (w : JsonWriter) : Prop :=
  ∃ m, IsMember m ∧
    emitMember k v w =
      ⟨w.output ++ w.sepFrag ++ m, w.pretty, w.indentLevel, true⟩

/-- Specification of emitting an object's member list. -/
def MembersSpec (fs : List (List Char × JVal)) (w : JsonWriter) : Prop :=
  (fs = [] → emitMembers fs w = w) ∧
  (fs ≠ [] → ∃ ms, IsMembers ms ∧
    emitMembers fs w =
      ⟨w.output ++ w.sepFrag ++ ms, w.pretty, w.indentLevel, true⟩)

/-- Specification of emitting one array element: the owed comma, whitespace,
then a grammatical JSON value. -/
def ElemSpec (v : JVal) (w : JsonWriter) : Prop :=
  ∃ core, IsJson core ∧
    emitElem v w =
      ⟨w.output ++ w.sepFrag ++ w.padNl ++ w.indentFrag ++ core,
       w.pretty, w.indentLevel, true⟩

/-- Specification of emitting an array's element list. -/
def ElemsSpec (es : List JVal) (w : JsonWriter) : Prop :=
  (es = [] → emitElems es w = w) ∧
  (es ≠ [] → ∃ els, IsElements els ∧
    emitElems es w =
      ⟨w.output ++ w.sepFrag ++ els, w.pretty, w.indentLevel, true⟩)

/-! ## Auxiliary definitions for the remaining claims -/

/-- What one recognized combined-short-flag letter does to the options
(the arms of the `match c` at `src/cli.rs:110-116`). -/
def setFlag (c : Char) (o : GlobalOptions) : GlobalOptions :=
  if c = 'j' then { o with json := true }
  else if c = 'p' then { o with pretty := true }
  else if c = 'v' then { o with verbose := true }
  else if c = 'h' then { o with human := true }
  else if c = 'H' then { o with help := true }
  else if c = 'D' then { o with debug := true }
  else o

/-- Effect of a run of recognized cluster letters, in order. -/
def applyRec (cs : List Char) (o : GlobalOptions) : GlobalOptions :=
  cs.foldl (fun o c => setFlag c o) o

/-- A concrete two-record document used to exhibit the writer's
whole-document output buffer. -/
def demoOps : List WriterOp :=
  [.beginArray, .arrayString ['a'], .arrayString ['b'], .endArray]

/-- The writer state after `begin_array` and then `n` `array_string` records
on a fresh compact writer. -/
def afterRecords : Nat → JsonWriter
  | 0 => (JsonWriter.new false).begin_array
  | n + 1 => (afterRecords n).array_string ['x']

/-- The arithmetic facts the escape table guarantees for each class, stated
per byte value so they can be established once by `decide` over `Fin 128`. -/
def classFact (b : Nat) : Prop :=
  (classifyByte b = .none → 0x20 ≤ b ∧ b ≠ 34 ∧ b ≠ 92) ∧
  (classifyByte b = .backspace → b = 8) ∧
  (classifyByte b = .tab → b = 9) ∧
  (classifyByte b = .newline → b = 10) ∧
  (classifyByte b = .formFeed → b = 12) ∧
  (classifyByte b = .carriageReturn → b = 13) ∧
  (classifyByte b = .quote → b = 34) ∧
  (classifyByte b = .backslash → b = 92)

/-! # Theorems -/

/-! ## Helper lemmas: substring search -/

/-- The empty needle is contained in every haystack. -/
theorem containsSub_nil (hay : List Char) : containsSub hay [] = true := by
  unfold containsSub
  cases hay <;> simp [List.isPrefixOf]

/-! ## C2: empty pattern matching -/

/-- C2 (counterexample): on the empty fields list, `matches_any` with the
empty pattern returns `false` in both case modes, because `Iterator::any`
over no fields is `false` — contradicting "returns true … including when the
fields list itself is empty". -/
theorem C2_counterexample_empty_fields :
    matches_any [] [] false = false ∧ matches_any [] [] true = false := by
  constructor <;> rfl

/-- C2 (amended): for every NON-EMPTY fields list and every case mode, the
empty pattern always matches: `matches_any fields [] mode = true`.  (On an
empty fields list the result is `false`.) -/
theorem C2_empty_pattern_matches_nonempty (fields : List (List Char))
    (ci : Bool) (h : fields ≠ []) : matches_any fields [] ci = true := by
  cases fields with
  | nil => exact absurd rfl h
  | cons f t =>
      cases ci <;> simp [matches_any, containsSub_nil]

/-- C2 (witness): the amended statement at a concrete one-field list. -/
theorem C2_witness :
    ([['a']] : List (List Char)) ≠ [] ∧ matches_any [['a']] [] false = true :=
  ⟨by decide, C2_empty_pattern_matches_nonempty [['a']] false (by decide)⟩

/-! ## C6: `from_str` prefix truncation -/

/-- C6: `StackString::<N>::from_str(s)` stores exactly the first
`min(byte-length of s, N)` bytes of `s` — a byte-prefix truncation — and in
particular `StackString::<5>::from_str("hello world")` holds the text
"hello" with `len() = 5` and `remaining() = 0`. -/
theorem C6_from_str_prefix_truncation :
    (∀ (N : Nat) (s : List Char),
      (StackString.from_str N s).len = min (utf8Length s) N ∧
      (StackString.from_str N s).data = (strBytes s).take N) ∧
    (StackString.from_str 5 "hello world".toList).data = strBytes "hello".toList ∧
    (StackString.from_str 5 "hello world".toList).len = 5 ∧
    (StackString.from_str 5 "hello world".toList).remaining = 0 := by
  refine ⟨fun N s => ⟨?_, ?_⟩, by decide, by decide, by decide⟩
  · simp only [StackString.from_str, StackString.push_str, StackString.new,
      StackString.remaining, StackString.len, utf8Length, List.nil_append,
      List.length_take, List.length_nil]
    omega
  · simp only [StackString.from_str, StackString.push_str, StackString.new,
      StackString.remaining, StackString.len, List.nil_append,
      List.length_nil, Nat.sub_zero, StackString.mk.injEq]
    rcases Nat.le_total (strBytes s).length N with hle | hle
    · rw [min_eq_left hle, List.take_of_length_le hle, List.take_length]
    · rw [min_eq_right hle]

/-! ## C7: `read_file_string` failure collapse -/

/-- C7: `read_file_string` returns `None` exactly when the underlying read
fails or the content trims to nothing, and otherwise returns the trimmed
content; the `Option` result carries no error detail beyond absence. -/
theorem C7_read_file_string_option (fs : String → Option (List Char))
    (path : String) :
    (read_file_string fs path = none ↔
      fs path = none ∨ ∃ s, fs path = some s ∧ trimList s = []) ∧
    (∀ s, fs path = some s → trimList s ≠ [] →
      read_file_string fs path = some (trimList s)) := by
  constructor
  · cases hfs : fs path with
    | none => simp [read_file_string, hfs]
    | some s =>
        simp only [read_file_string, hfs]
        by_cases ht : trimList s = [] <;> simp [ht, List.isEmpty_iff]
  · intro s hs ht
    simp [read_file_string, hs, List.isEmpty_iff, ht]

/-- C7 (witness): a concrete successful read of `" a "` trims to `"a"`. -/
theorem C7_witness :
    read_file_string (fun _ => some [' ', 'a', ' ']) "p" =
      some (trimList [' ', 'a', ' ']) :=
  (C7_read_file_string_option (fun _ => some [' ', 'a', ' ']) "p").2
    [' ', 'a', ' '] rfl (by decide)

/-! ## C1: the UTF-8 invariant is violated by a capacity-starved `push` -/

/-- C1: the UTF-8 invariant does NOT survive `push` when the remaining
capacity is smaller than the character's encoding.  Starting from the
reachable state `StackString::<1>::new()`, `push('é')` encodes `é` as the two
bytes `[0xC3, 0xA9]` and the length-capped copy keeps only `0xC3`, a lone
UTF-8 lead byte: the stored bytes are no longer valid UTF-8, contradicting
the documented invariant (and the `SAFETY` comment in `as_str`). -/
theorem C1_push_splits_utf8_sequence :
    ((StackString.new 1).push 'é').1.data = [0xC3] ∧ ¬ ValidUtf8 [0xC3] := by
  constructor
  · decide
  · rintro ⟨cs, h⟩
    cases cs with
    | nil => simp [strBytes] at h
    | cons c t =>
        simp only [strBytes] at h
        unfold utf8Bytes at h
        by_cases h1 : c.toNat < 0x80
        · simp only [h1, if_pos] at h
          rw [List.cons_append] at h
          have h2 := List.head_eq_of_cons_eq h
          have h3 : c.toNat = 0xC3 := h2
          omega
        · by_cases h2 : c.toNat < 0x800
          · simp [h1, h2] at h
          · by_cases h3 : c.toNat < 0x10000
            · simp [h1, h2, h3] at h
            · simp [h1, h2, h3] at h

/-! ## Helper lemmas: exact effect of each writer call -/

theorem JsonWriter.write_separator_spec (w : JsonWriter) :
    w.write_separator =
      ⟨w.output ++ w.sepFrag ++ w.padNl, w.pretty, w.indentLevel, false⟩ := by
  rcases w with ⟨o, p, i, nc⟩
  cases nc <;>
    simp [JsonWriter.write_separator, JsonWriter.sepFrag, JsonWriter.padNl,
      JsonWriter.nlFrag, List.append_assoc]

theorem JsonWriter.begin_object_spec (w : JsonWriter) :
    w.begin_object =
      ⟨w.output ++ w.sepFrag ++ w.padNl ++ w.indentFrag ++ ['{'] ++ w.nlFrag,
       w.pretty, w.indentLevel + 1, false⟩ := by
  unfold JsonWriter.begin_object
  rw [JsonWriter.write_separator_spec]
  simp [JsonWriter.indentFrag, JsonWriter.nlFrag, List.append_assoc]

theorem JsonWriter.end_object_spec (w : JsonWriter) :
    w.end_object =
      ⟨w.output ++ w.nlFrag ++ indentAt w.pretty (w.indentLevel - 1) ++ ['}'],
       w.pretty, w.indentLevel - 1, true⟩ := by
  rfl

theorem JsonWriter.begin_array_spec (w : JsonWriter) :
    w.begin_array =
      ⟨w.output ++ w.sepFrag ++ w.padNl ++ w.indentFrag ++ ['['] ++ w.nlFrag,
       w.pretty, w.indentLevel + 1, false⟩ := by
  unfold JsonWriter.begin_array
  rw [JsonWriter.write_separator_spec]
  simp [JsonWriter.indentFrag, JsonWriter.nlFrag, List.append_assoc]

theorem JsonWriter.end_array_spec (w : JsonWriter) :
    w.end_array =
      ⟨w.output ++ w.nlFrag ++ indentAt w.pretty (w.indentLevel - 1) ++ [']'],
       w.pretty, w.indentLevel - 1, true⟩ := by
  rfl

theorem JsonWriter.key_spec (w : JsonWriter) (k : List Char) :
    w.key k =
      ⟨w.output ++ w.sepFrag ++ w.padNl ++ w.indentFrag ++
        '"' :: escapeList k ++ '"' :: ':' :: w.spaceFrag,
       w.pretty, w.indentLevel, false⟩ := by
  unfold JsonWriter.key
  rw [JsonWriter.write_separator_spec]
  simp [JsonWriter.indentFrag, JsonWriter.spaceFrag, List.append_assoc]

theorem JsonWriter.value_string_spec (w : JsonWriter) (v : List Char) :
    w.value_string v =
      ⟨w.output ++ '"' :: escapeList v ++ ['"'], w.pretty, w.indentLevel, true⟩ := by
  rfl

theorem JsonWriter.value_u64_spec (w : JsonWriter) (n : Nat) :
    w.value_u64 n = ⟨w.output ++ natRepr n, w.pretty, w.indentLevel, true⟩ := by
  rfl

theorem JsonWriter.value_bool_spec (w : JsonWriter) (b : Bool) :
    w.value_bool b =
      ⟨w.output ++ (if b then "true".toList else "false".toList),
       w.pretty, w.indentLevel, true⟩ := by
  rfl

theorem JsonWriter.value_null_spec (w : JsonWriter) :
    w.value_null = ⟨w.output ++ "null".toList, w.pretty, w.indentLevel, true⟩ := by
  rfl

theorem JsonWriter.field_object_spec (w : JsonWriter) (k : List Char) :
    w.field_object k =
      ⟨w.output ++ w.sepFrag ++ w.padNl ++ w.indentFrag ++
        '"' :: escapeList k ++ '"' :: ':' :: w.spaceFrag ++ ['{'] ++ w.nlFrag,
       w.pretty, w.indentLevel + 1, false⟩ := by
  unfold JsonWriter.field_object
  rw [JsonWriter.key_spec]
  simp [JsonWriter.nlFrag, List.append_assoc]

theorem JsonWriter.field_array_spec (w : JsonWriter) (k : List Char) :
    w.field_array k =
      ⟨w.output ++ w.sepFrag ++ w.padNl ++ w.indentFrag ++
        '"' :: escapeList k ++ '"' :: ':' :: w.spaceFrag ++ ['['] ++ w.nlFrag,
       w.pretty, w.indentLevel + 1, false⟩ := by
  unfold JsonWriter.field_array
  rw [JsonWriter.key_spec]
  simp [JsonWriter.nlFrag, List.append_assoc]

theorem JsonWriter.array_string_spec (w : JsonWriter) (v : List Char) :
    w.array_string v =
      ⟨w.output ++ w.sepFrag ++ w.padNl ++ w.indentFrag ++
        '"' :: escapeList v ++ ['"'],
       w.pretty, w.indentLevel, true⟩ := by
  unfold JsonWriter.array_string
  rw [JsonWriter.write_separator_spec]
  simp [JsonWriter.indentFrag, List.append_assoc]

/-! ## C3: the writer accumulates the whole document -/

/-- Every writer call only appends to the output buffer; nothing is ever
flushed to any destination stream. -/
theorem applyOp_output_extends (o : WriterOp) (w : JsonWriter) :
    w.output <+: (applyOp o w).output := by
  cases o <;>
    simp [applyOp, JsonWriter.field_str, JsonWriter.field_u64,
      JsonWriter.field_bool, JsonWriter.end_field_object,
      JsonWriter.end_field_array, JsonWriter.array_object_begin,
      JsonWriter.array_object_end, JsonWriter.begin_object_spec,
      JsonWriter.end_object_spec, JsonWriter.begin_array_spec,
      JsonWriter.end_array_spec, JsonWriter.key_spec,
      JsonWriter.value_string_spec, JsonWriter.value_u64_spec,
      JsonWriter.value_bool_spec, JsonWriter.value_null_spec,
      JsonWriter.field_object_spec, JsonWriter.field_array_spec,
      JsonWriter.array_string_spec, List.append_assoc]

/-- Over a whole call sequence the initial output stays a prefix: the buffer
only grows. -/
theorem runOps_output_extends (ops : List WriterOp) (w : JsonWriter) :
    w.output <+: (runOps ops w).output := by
  induction ops generalizing w with
  | nil => exact List.prefix_refl _
  | cons o rest ih => exact (applyOp_output_extends o w).trans (ih (applyOp o w))

/-- After `n` records the buffer holds at least `n` characters. -/
theorem afterRecords_length (n : Nat) : n ≤ ((afterRecords n).output).length := by
  induction n with
  | zero => exact Nat.zero_le _
  | succ k ih =>
      show k + 1 ≤ ((afterRecords k).array_string ['x']).output.length
      rw [JsonWriter.array_string_spec]
      simp only [List.length_append, List.length_cons, List.length_singleton]
      omega

/-- C3 (counterexample): the serializer keeps the whole document in memory.
After the two-record document `["a","b"]` is emitted on a compact writer, the
writer's `output` buffer — returned whole by `finish` — contains the complete
document text; and no bound `B` caps the buffer length over all record
counts, so output memory is NOT O(1) in the number of records. -/
theorem C3_counterexample_whole_document_buffer :
    (runOps demoOps (JsonWriter.new false)).finish = "[\"a\",\"b\"]".toList ∧
    ¬ ∃ B : Nat, ∀ n : Nat, ((afterRecords n).output).length ≤ B := by
  refine ⟨by decide, ?_⟩
  rintro ⟨B, hB⟩
  have h1 := afterRecords_length (B + 1)
  have h2 := hB (B + 1)
  omega

/-- C3 (amended): every fragment is appended to the writer's in-memory
`output` buffer (`String`), which is returned by `finish`; the buffer is
never flushed — the initial output is always a prefix of the later output —
and grows at least linearly with the number of records emitted, so the
serializer's memory is proportional to the whole document, not O(1). -/
theorem C3_amended_output_accumulates :
    (∀ (ops : List WriterOp) (w : JsonWriter),
      w.output <+: (runOps ops w).output) ∧
    (∀ n : Nat, n ≤ ((afterRecords n).output).length) :=
  ⟨runOps_output_extends, afterRecords_length⟩

/-! ## C8: clusters containing `f`/`F` pass through whole -/

/-- ASCII characters encode to a single UTF-8 byte. -/
theorem utf8Bytes_ascii (c : Char) (h : c.toNat < 128) : utf8Bytes c = [c.toNat] := by
  simp only [utf8Bytes]
  rw [if_pos (by omega : c.toNat < 0x80)]

/-- C8: a combined short-flag token (dash, no second dash, more than two
bytes) whose letters include `f` or `F` is not split: the whole token is
appended to the remaining positional arguments, no flag is set, and no value
is consumed from the following token — the scan continues at `rest` with the
options unchanged. -/
theorem C8_cluster_with_filter_letter_passes_through
    (c1 : Char) (cs : List Char) (rest : List (List Char))
    (o : GlobalOptions) (rem : List (List Char))
    (hc1 : c1 ≠ '-') (hlen : utf8Length ('-' :: c1 :: cs) > 2)
    (hf : 'f' ∈ c1 :: cs ∨ 'F' ∈ c1 :: cs) :
    parseLoop (('-' :: c1 :: cs) :: rest) o rem =
      parseLoop rest o (rem ++ ['-' :: c1 :: cs]) := by
  have hone : ∀ (x : Char), x.toNat < 128 → ¬(c1 = x ∧ cs = []) := by
    rintro x hx ⟨rfl, rfl⟩
    have hminus : utf8Bytes '-' = [45] := by decide
    simp [utf8Length, strBytes, hminus, utf8Bytes_ascii _ hx] at hlen
  have f1 := hone 'j' (by decide)
  have f2 := hone 'p' (by decide)
  have f3 := hone 'v' (by decide)
  have f4 := hone 'h' (by decide)
  have f5 := hone 'H' (by decide)
  have f6 := hone 'D' (by decide)
  have f7 := hone 'f' (by decide)
  have f8 := hone 'F' (by decide)
  rw [parseLoop.eq_def]
  simp only [List.mem_cons] at hf
  rcases hf with hf | hf <;>
    simp [f1, f2, f3, f4, f5, f6, f7, f8, hc1, hf]

/-- C8 (witness): the token `-jf` before a token `x` is passed through whole
with no flag set and `x` not consumed. -/
theorem C8_witness :
    parseLoop [['-', 'j', 'f'], ['x']] {} [] =
      parseLoop [['x']] {} ([] ++ [['-', 'j', 'f']]) :=
  C8_cluster_with_filter_letter_passes_through 'j' ['f'] [['x']] {} []
    (by decide) (by decide) (Or.inl (by simp))

/-! ## C9: `-F` lower-cases its pattern at parse time -/

/-- C9: parsing `["prog","-F","UP"]` (with either state of the `KV_DEBUG`
environment) yields no subcommand, the already-lower-cased filter pattern
`"up"`, and the case-insensitive flag set. -/
theorem C9_iF_pattern_lowercased_at_parse (b : Bool) :
    (Invocation.parse_from b ["prog".toList, "-F".toList, "UP".toList]).subcommand
        = none ∧
    (Invocation.parse_from b ["prog".toList, "-F".toList, "UP".toList]).options.filter
        = some "up".toList ∧
    (Invocation.parse_from b ["prog".toList, "-F".toList, "UP".toList]).options.filter_case_insensitive
        = true := by
  cases b <;> exact ⟨by decide, by decide, by decide⟩

/-! ## C10: partial application of a cluster with an unknown letter -/

/-- The cluster loop applies every recognized letter before the first
unrecognized one, then appends the whole original token and stops. -/
theorem applyFlags_split (bad : Char) (tail2 : List Char) (tok : List Char)
    (rem : List (List Char))
    (hbad : ¬(bad = 'j' ∨ bad = 'p' ∨ bad = 'v' ∨ bad = 'h' ∨ bad = 'H' ∨ bad = 'D')) :
    ∀ (good : List Char) (o : GlobalOptions),
      (∀ c ∈ good, c = 'j' ∨ c = 'p' ∨ c = 'v' ∨ c = 'h' ∨ c = 'H' ∨ c = 'D') →
      applyFlags (good ++ bad :: tail2) o tok rem = (applyRec good o, rem ++ [tok]) := by
  intro good
  induction good with
  | nil =>
      intro o _
      push_neg at hbad
      obtain ⟨n1, n2, n3, n4, n5, n6⟩ := hbad
      simp [applyFlags, applyRec, n1, n2, n3, n4, n5, n6]
  | cons g gs ih =>
      intro o hgood
      have hg := hgood g (List.mem_cons_self g gs)
      have hgs : ∀ c ∈ gs, c = 'j' ∨ c = 'p' ∨ c = 'v' ∨ c = 'h' ∨ c = 'H' ∨ c = 'D' :=
        fun c hc => hgood c (List.mem_cons_of_mem g hc)
      rcases hg with rfl | rfl | rfl | rfl | rfl | rfl <;>
        simp only [List.cons_append, applyFlags, applyRec, List.foldl_cons, setFlag] <;>
        simp <;>
        exact ih _ hgs

/-- C10: when a combined short-flag cluster (no `f`/`F` inside) contains an
unknown letter, the processing is not atomic: every recognized letter before
the unknown one takes effect on the options, and the entire original token is
additionally appended to the remaining positional arguments. -/
theorem C10_cluster_unknown_flag_partial_application
    (c1 : Char) (cs good : List Char) (bad : Char) (tail2 : List Char)
    (rest : List (List Char)) (o : GlobalOptions) (rem : List (List Char))
    (hshape : c1 :: cs = good ++ bad :: tail2)
    (hc1 : c1 ≠ '-') (hlen : utf8Length ('-' :: c1 :: cs) > 2)
    (hgood : ∀ c ∈ good, c = 'j' ∨ c = 'p' ∨ c = 'v' ∨ c = 'h' ∨ c = 'H' ∨ c = 'D')
    (hbad : ¬(bad = 'j' ∨ bad = 'p' ∨ bad = 'v' ∨ bad = 'h' ∨ bad = 'H' ∨ bad = 'D'))
    (hnf : ¬('f' ∈ c1 :: cs)) (hnF : ¬('F' ∈ c1 :: cs)) :
    parseLoop (('-' :: c1 :: cs) :: rest) o rem =
      parseLoop rest (applyRec good o) (rem ++ ['-' :: c1 :: cs]) := by
  have hone : ∀ (x : Char), x.toNat < 128 → ¬(c1 = x ∧ cs = []) := by
    rintro x hx ⟨rfl, rfl⟩
    have hminus : utf8Bytes '-' = [45] := by decide
    simp [utf8Length, strBytes, hminus, utf8Bytes_ascii _ hx] at hlen
  have f1 := hone 'j' (by decide)
  have f2 := hone 'p' (by decide)
  have f3 := hone 'v' (by decide)
  have f4 := hone 'h' (by decide)
  have f5 := hone 'H' (by decide)
  have f6 := hone 'D' (by decide)
  have f7 := hone 'f' (by decide)
  have f8 := hone 'F' (by decide)
  simp only [List.mem_cons] at hnf hnF
  rw [parseLoop.eq_def]
  simp only [List.cons.injEq]
  simp [f1, f2, f3, f4, f5, f6, f7, f8, hc1, hlen, hnf, hnF]
  rw [hshape, applyFlags_split bad tail2 _ rem hbad good o hgood]

/-- C10 (witness): `-jx` sets `json` from the leading `j`, then the unknown
`x` sends the whole token to the positional arguments. -/
theorem C10_witness :
    parseLoop [['-', 'j', 'x']] {} [] =
      parseLoop [] (applyRec ['j'] {}) ([] ++ [['-', 'j', 'x']]) :=
  C10_cluster_unknown_flag_partial_application 'j' ['x'] ['j'] 'x' [] [] {} []
    rfl (by decide) (by decide)
    (by intro c hc; simp at hc; simp [hc]) (by decide)
    (by simp) (by simp)

/-! ## C4: escape/parse round-trip -/

/-- The per-class arithmetic facts of the escape table, established once by
checking all 128 entries. -/
theorem classFact_all : ∀ b : Fin 128, classFact b.val := by
  simp only [classFact]
  decide

/-- `classFact` at a raw byte bound. -/
theorem classFact_of_lt (b : Nat) (h : b < 128) : classFact b :=
  classFact_all ⟨b, h⟩

/-- `hexDigitVal` inverts `Nat.digitChar` on hex digit values. -/
theorem hexVal_digitChar : ∀ n : Fin 16,
    hexDigitVal (Nat.digitChar n.val) = some n.val := by
  decide

/-- `hexDigitVal` inverts `Nat.digitChar`, raw-bound form. -/
theorem hexVal_digitChar_of_lt (m : Nat) (h : m < 16) :
    hexDigitVal (Nat.digitChar m) = some m :=
  hexVal_digitChar ⟨m, h⟩

/-- The decoder consumes one ordinary (unescaped, non-quote, non-control)
character verbatim. -/
theorem decodeBodyF_cons_safe (n : Nat) (c : Char) (t : List Char)
    (h1 : c ≠ '"') (h2 : c ≠ '\\') (h3 : ¬ c.toNat < 0x20) :
    decodeBodyF (n + 1) (c :: t) = (decodeBodyF n t).map (c :: ·) := by
  rw [decodeBodyF.eq_def]
  simp [h1, h2, h3]

/-- The decoder consumes one named escape. -/
theorem decodeBodyF_named (n : Nat) (e ch : Char) (t : List Char)
    (he : namedEscape e = some ch) (hu : e ≠ 'u') :
    decodeBodyF (n + 1) ('\\' :: e :: t) = (decodeBodyF n t).map (ch :: ·) := by
  rw [decodeBodyF.eq_def]
  simp [hu, he]

/-- The decoder consumes the `\u00XX` escape the table emits for an ASCII
control byte (or DEL), recovering exactly that character. -/
theorem decodeBodyF_unicode (n : Nat) (c : Char) (t : List Char)
    (hc : c.toNat < 128) :
    decodeBodyF (n + 1)
      ('\\' :: 'u' :: '0' :: '0' ::
        Nat.digitChar (c.toNat / 16) :: Nat.digitChar (c.toNat % 16) :: t) =
      (decodeBodyF n t).map (c :: ·) := by
  have hd1 := hexVal_digitChar_of_lt (c.toNat / 16) (by omega)
  have hd2 := hexVal_digitChar_of_lt (c.toNat % 16) (by omega)
  have h0 : hexDigitVal '0' = some 0 := by decide
  have h4 : hex4At ('0' :: '0' :: Nat.digitChar (c.toNat / 16) ::
      Nat.digitChar (c.toNat % 16) :: t) = some (c.toNat, t) := by
    rw [hex4At]
    simp only [h0, hd1, hd2]
    have harith : ((0 * 16 + 0) * 16 + c.toNat / 16) * 16 + c.toNat % 16 = c.toNat := by
      omega
    rw [harith]
  have hu : uEscape ('0' :: '0' :: Nat.digitChar (c.toNat / 16) ::
      Nat.digitChar (c.toNat % 16) :: t) = some (c, t) := by
    simp only [uEscape, h4]
    rw [if_pos (Or.inl (by omega : c.toNat < 0xD800)), Char.ofNat_toNat]
  rw [decodeBodyF.eq_def]
  simp [hu]

/-- One escaped character decodes back to itself in front of any
continuation. -/
theorem decodeBodyF_escapeChar (n : Nat) (c : Char) (t : List Char) :
    decodeBodyF (n + 1) (escapeChar c ++ t) = (decodeBodyF n t).map (c :: ·) := by
  by_cases hc : c.toNat < 128
  · have hk := classFact_of_lt c.toNat hc
    simp only [classFact] at hk
    obtain ⟨k1, k2, k3, k4, k5, k6, k7, k8⟩ := hk
    cases hcl : classifyByte c.toNat with
    | none =>
        obtain ⟨hge, h34, h92⟩ := k1 hcl
        have he : escapeChar c = [c] := by
          unfold escapeChar
          rw [if_pos hc, hcl]
        rw [he, List.cons_append, List.nil_append]
        refine decodeBodyF_cons_safe n c t ?_ ?_ (by omega)
        · intro h
          rw [h] at h34
          exact h34 rfl
        · intro h
          rw [h] at h92
          exact h92 rfl
    | backspace =>
        have hceq : c = Char.ofNat 8 := by rw [← Char.ofNat_toNat c, k2 hcl]
        subst hceq
        have he : escapeChar (Char.ofNat 8) = ['\\', 'b'] := by decide
        rw [he, List.cons_append, List.cons_append, List.nil_append]
        exact decodeBodyF_named n 'b' (Char.ofNat 8) t (by decide) (by decide)
    | tab =>
        have hceq : c = Char.ofNat 9 := by rw [← Char.ofNat_toNat c, k3 hcl]
        subst hceq
        have he : escapeChar (Char.ofNat 9) = ['\\', 't'] := by decide
        rw [he, List.cons_append, List.cons_append, List.nil_append]
        exact decodeBodyF_named n 't' (Char.ofNat 9) t (by decide) (by decide)
    | newline =>
        have hceq : c = Char.ofNat 10 := by rw [← Char.ofNat_toNat c, k4 hcl]
        subst hceq
        have he : escapeChar (Char.ofNat 10) = ['\\', 'n'] := by decide
        rw [he, List.cons_append, List.cons_append, List.nil_append]
        exact decodeBodyF_named n 'n' (Char.ofNat 10) t (by decide) (by decide)
    | formFeed =>
        have hceq : c = Char.ofNat 12 := by rw [← Char.ofNat_toNat c, k5 hcl]
        subst hceq
        have he : escapeChar (Char.ofNat 12) = ['\\', 'f'] := by decide
        rw [he, List.cons_append, List.cons_append, List.nil_append]
        exact decodeBodyF_named n 'f' (Char.ofNat 12) t (by decide) (by decide)
    | carriageReturn =>
        have hceq : c = Char.ofNat 13 := by rw [← Char.ofNat_toNat c, k6 hcl]
        subst hceq
        have he : escapeChar (Char.ofNat 13) = ['\\', 'r'] := by decide
        rw [he, List.cons_append, List.cons_append, List.nil_append]
        exact decodeBodyF_named n 'r' (Char.ofNat 13) t (by decide) (by decide)
    | quote =>
        have hceq : c = Char.ofNat 34 := by rw [← Char.ofNat_toNat c, k7 hcl]
        subst hceq
        have he : escapeChar (Char.ofNat 34) = ['\\', '"'] := by decide
        rw [he, List.cons_append, List.cons_append, List.nil_append]
        exact decodeBodyF_named n '"' (Char.ofNat 34) t (by decide) (by decide)
    | backslash =>
        have hceq : c = Char.ofNat 92 := by rw [← Char.ofNat_toNat c, k8 hcl]
        subst hceq
        have he : escapeChar (Char.ofNat 92) = ['\\', '\\'] := by decide
        rw [he, List.cons_append, List.cons_append, List.nil_append]
        exact decodeBodyF_named n '\\' (Char.ofNat 92) t (by decide) (by decide)
    | unicode =>
        have he : escapeChar c = ['\\', 'u', '0', '0',
            Nat.digitChar (c.toNat / 16), Nat.digitChar (c.toNat % 16)] := by
          unfold escapeChar
          rw [if_pos hc, hcl]
        rw [he]
        simp only [List.cons_append, List.nil_append]
        exact decodeBodyF_unicode n c t hc
  · have he : escapeChar c = [c] := by
      unfold escapeChar
      rw [if_neg hc]
    rw [he, List.cons_append, List.nil_append]
    refine decodeBodyF_cons_safe n c t ?_ ?_ (by omega)
    · intro h
      rw [h] at hc
      exact hc (by decide)
    · intro h
      rw [h] at hc
      exact hc (by decide)

/-- Escaping never shortens a string (each character contributes at least one
output character). -/
theorem escapeList_length_ge (s : List Char) : s.length ≤ (escapeList s).length := by
  induction s with
  | nil => simp [escapeList]
  | cons c t ih =>
      simp only [escapeList, List.length_append, List.length_cons]
      have h1 : 1 ≤ (escapeChar c).length := by
        unfold escapeChar
        by_cases hc : c.toNat < 128
        · rw [if_pos hc]
          cases classifyByte c.toNat <;> simp
        · rw [if_neg hc]
          simp
      omega

/-- Decoding inverts escaping for a whole string body, given enough fuel. -/
theorem decodeBodyF_escapeList (s : List Char) : ∀ n : Nat,
    decodeBodyF (s.length + n + 1) (escapeList s ++ ['"']) = some s := by
  induction s with
  | nil =>
      intro n
      rw [escapeList, List.nil_append, decodeBodyF.eq_def]
      simp
  | cons c t ih =>
      intro n
      rw [escapeList, List.append_assoc]
      have hfuel : (c :: t).length + n + 1 = (t.length + (n + 1)) + 1 := by
        simp only [List.length_cons]
        omega
      rw [hfuel, decodeBodyF_escapeChar (t.length + (n + 1)) c (escapeList t ++ ['"'])]
      have hfuel2 : t.length + (n + 1) = t.length + n + 1 := rfl
      rw [hfuel2, ih n]
      rfl

/-- C4: escaping any string with `escape_string_into`, wrapping it in double
quotes, and decoding with the reference (RFC 8259) JSON string parser
reproduces the original string exactly — including control characters,
quote, backslash and non-ASCII code points. -/
theorem C4_escape_roundtrip (s : List Char) :
    jsonStringDecode ('"' :: (escapeList s ++ ['"'])) = some s := by
  simp only [jsonStringDecode]
  have hlen : (escapeList s ++ ['"']).length =
      s.length + ((escapeList s).length - s.length) + 1 := by
    have := escapeList_length_ge s
    simp only [List.length_append, List.length_singleton]
    omega
  rw [hlen]
  exact decodeBodyF_escapeList s ((escapeList s).length - s.length)

/-! ## C5 groundwork: escaped strings are grammatical string bodies -/

/-- A named escape contributes a grammatical escape pair. -/
theorem goodBody_named (e : Char) (t : List Char)
    (h : (e = '"' || e = '\\' || e = '/' || e = 'b' || e = 'f' ||
          e = 'n' || e = 'r' || e = 't') = true)
    (hu : e ≠ 'u') : goodBody ('\\' :: e :: t) = goodBody t := by
  rw [goodBody.eq_def]
  simp [hu, h]

/-- One escaped character contributes a grammatical fragment of the string
body. -/
theorem goodBody_escapeChar (c : Char) (t : List Char) :
    goodBody (escapeChar c ++ t) = goodBody t := by
  by_cases hc : c.toNat < 128
  · have hk := classFact_of_lt c.toNat hc
    simp only [classFact] at hk
    obtain ⟨k1, k2, k3, k4, k5, k6, k7, k8⟩ := hk
    cases hcl : classifyByte c.toNat with
    | none =>
        obtain ⟨hge, h34, h92⟩ := k1 hcl
        have he : escapeChar c = [c] := by
          unfold escapeChar
          rw [if_pos hc, hcl]
        have h1 : c ≠ '"' := by
          intro h
          rw [h] at h34
          exact h34 rfl
        have h2 : c ≠ '\\' := by
          intro h
          rw [h] at h92
          exact h92 rfl
        rw [he, List.cons_append, List.nil_append, goodBody.eq_def]
        simp [h1, h2, hge]
    | backspace =>
        have hceq : c = Char.ofNat 8 := by rw [← Char.ofNat_toNat c, k2 hcl]
        subst hceq
        have he : escapeChar (Char.ofNat 8) = ['\\', 'b'] := by decide
        rw [he, List.cons_append, List.cons_append, List.nil_append]
        exact goodBody_named 'b' t (by decide) (by decide)
    | tab =>
        have hceq : c = Char.ofNat 9 := by rw [← Char.ofNat_toNat c, k3 hcl]
        subst hceq
        have he : escapeChar (Char.ofNat 9) = ['\\', 't'] := by decide
        rw [he, List.cons_append, List.cons_append, List.nil_append]
        exact goodBody_named 't' t (by decide) (by decide)
    | newline =>
        have hceq : c = Char.ofNat 10 := by rw [← Char.ofNat_toNat c, k4 hcl]
        subst hceq
        have he : escapeChar (Char.ofNat 10) = ['\\', 'n'] := by decide
        rw [he, List.cons_append, List.cons_append, List.nil_append]
        exact goodBody_named 'n' t (by decide) (by decide)
    | formFeed =>
        have hceq : c = Char.ofNat 12 := by rw [← Char.ofNat_toNat c, k5 hcl]
        subst hceq
        have he : escapeChar (Char.ofNat 12) = ['\\', 'f'] := by decide
        rw [he, List.cons_append, List.cons_append, List.nil_append]
        exact goodBody_named 'f' t (by decide) (by decide)
    | carriageReturn =>
        have hceq : c = Char.ofNat 13 := by rw [← Char.ofNat_toNat c, k6 hcl]
        subst hceq
        have he : escapeChar (Char.ofNat 13) = ['\\', 'r'] := by decide
        rw [he, List.cons_append, List.cons_append, List.nil_append]
        exact goodBody_named 'r' t (by decide) (by decide)
    | quote =>
        have hceq : c = Char.ofNat 34 := by rw [← Char.ofNat_toNat c, k7 hcl]
        subst hceq
        have he : escapeChar (Char.ofNat 34) = ['\\', '"'] := by decide
        rw [he, List.cons_append, List.cons_append, List.nil_append]
        exact goodBody_named '"' t (by decide) (by decide)
    | backslash =>
        have hceq : c = Char.ofNat 92 := by rw [← Char.ofNat_toNat c, k8 hcl]
        subst hceq
        have he : escapeChar (Char.ofNat 92) = ['\\', '\\'] := by decide
        rw [he, List.cons_append, List.cons_append, List.nil_append]
        exact goodBody_named '\\' t (by decide) (by decide)
    | unicode =>
        have he : escapeChar c = ['\\', 'u', '0', '0',
            Nat.digitChar (c.toNat / 16), Nat.digitChar (c.toNat % 16)] := by
          unfold escapeChar
          rw [if_pos hc, hcl]
        have hd1 := hexVal_digitChar_of_lt (c.toNat / 16) (by omega)
        have hd2 := hexVal_digitChar_of_lt (c.toNat % 16) (by omega)
        have h0 : (hexDigitVal '0').isSome = true := by decide
        rw [he]
        simp only [List.cons_append, List.nil_append]
        rw [goodBody.eq_def]
        simp [hd1, hd2, h0]
  · have he : escapeChar c = [c] := by
      unfold escapeChar
      rw [if_neg hc]
    have h1 : c ≠ '"' := by
      intro h
      rw [h] at hc
      exact hc (by decide)
    have h2 : c ≠ '\\' := by
      intro h
      rw [h] at hc
      exact hc (by decide)
    rw [he, List.cons_append, List.nil_append, goodBody.eq_def]
    simp [h1, h2]
    omega

/-- The escape of any string is a grammatical string-literal body. -/
theorem goodBody_escapeList (s : List Char) : goodBody (escapeList s) = true := by
  induction s with
  | nil => rfl
  | cons c t ih => rw [escapeList, goodBody_escapeChar, ih]

/-- The string literal the writer emits for `s` is grammatical. -/
theorem stringLit_escape (s : List Char) :
    IsStringLit ('"' :: escapeList s ++ ['"']) :=
  IsStringLit.mk (escapeList s) (goodBody_escapeList s)

/-! ## C5 groundwork: decimal literals are grammatical numbers -/

/-- Decimal digit characters are digits. -/
theorem digitChar_isDigit : ∀ m : Fin 10, (Nat.digitChar m.val).isDigit = true := by
  decide

/-- Nonzero decimal digits are not `'0'`. -/
theorem digitChar_ne_zero : ∀ m : Fin 10, 1 ≤ m.val → Nat.digitChar m.val ≠ '0' := by
  decide

/-- `natRepr` is nonempty, all digits, and has no leading zero for positive
input. -/
theorem natRepr_spec (n : Nat) :
    (natRepr n ≠ [] ∧ ∀ c ∈ natRepr n, c.isDigit = true) ∧
    (1 ≤ n → (natRepr n).head? ≠ some '0') := by
  induction n using Nat.strong_induction_on with
  | _ n ih =>
    by_cases h : n < 10
    · rw [natRepr, dif_pos h]
      refine ⟨⟨by simp, ?_⟩, ?_⟩
      · intro c hc
        rw [List.mem_singleton] at hc
        subst hc
        exact digitChar_isDigit ⟨n, h⟩
      · intro h1 hh
        rw [List.head?_singleton, Option.some_inj] at hh
        exact digitChar_ne_zero ⟨n, h⟩ h1 hh
    · rw [natRepr, dif_neg h]
      obtain ⟨⟨hne, hdig⟩, hhd⟩ := ih (n / 10) (Nat.div_lt_self (by omega) (by omega))
      obtain ⟨a, t, he⟩ := List.exists_cons_of_ne_nil hne
      refine ⟨⟨by simp, ?_⟩, ?_⟩
      · intro c hc
        rcases List.mem_append.mp hc with hm | hm
        · exact hdig c hm
        · rw [List.mem_singleton] at hm
          subst hm
          exact digitChar_isDigit ⟨n % 10, Nat.mod_lt _ (by omega)⟩
      · intro _
        rw [he, List.cons_append, List.head?_cons]
        rw [he, List.head?_cons] at hhd
        exact hhd (by omega)

/-- The text `value_u64` writes is a grammatical JSON number. -/
theorem natRepr_IsNumLit (n : Nat) : IsNumLit (natRepr n) := by
  obtain ⟨⟨hne, hdig⟩, hhd⟩ := natRepr_spec n
  refine ⟨hne, hdig, ?_⟩
  intro hh
  rcases Nat.eq_zero_or_pos n with rfl | hpos
  · rw [natRepr, dif_pos (by omega : (0 : Nat) < 10)]
    decide
  · exact absurd hh (hhd hpos)

/-! ## C5 groundwork: whitespace fragments -/

theorem wsOnly_nil : WsOnly [] := by
  intro c hc
  simp at hc

theorem wsOnly_append {a b : List Char} (ha : WsOnly a) (hb : WsOnly b) :
    WsOnly (a ++ b) := by
  intro c hc
  rcases List.mem_append.mp hc with h | h
  exacts [ha c h, hb c h]

theorem wsOnly_indentAt (p : Bool) (l : Nat) : WsOnly (indentAt p l) := by
  intro c hc
  cases p <;> simp [indentAt] at hc
  rw [hc.2]
  rfl

theorem wsOnly_indentFrag (w : JsonWriter) : WsOnly w.indentFrag :=
  wsOnly_indentAt w.pretty w.indentLevel

theorem wsOnly_nlFrag (w : JsonWriter) : WsOnly w.nlFrag := by
  rcases w with ⟨o, p, i, nc⟩
  intro c hc
  cases p <;> simp [JsonWriter.nlFrag] at hc
  rw [hc]
  rfl

theorem wsOnly_padNl (w : JsonWriter) : WsOnly w.padNl := by
  rcases w with ⟨o, p, i, nc⟩
  intro c hc
  cases nc <;> simp [JsonWriter.padNl] at hc
  exact wsOnly_nlFrag ⟨o, p, i, true⟩ c hc

theorem wsOnly_spaceFrag (w : JsonWriter) : WsOnly w.spaceFrag := by
  rcases w with ⟨o, p, i, nc⟩
  intro c hc
  cases p <;> simp [JsonWriter.spaceFrag] at hc
  rw [hc]
  rfl

/-! ## C5 groundwork: whitespace absorption into the grammar -/

theorem isElement_wsL {w e : List Char} (hw : WsOnly w) (he : IsElement e) :
    IsElement (w ++ e) := by
  cases he with
  | mk h1 hv h2 =>
      have h := IsElement.mk (wsOnly_append hw h1) hv h2
      simpa [List.append_assoc] using h

theorem isElement_wsR {e w : List Char} (he : IsElement e) (hw : WsOnly w) :
    IsElement (e ++ w) := by
  cases he with
  | mk h1 hv h2 =>
      have h := IsElement.mk h1 hv (wsOnly_append h2 hw)
      simpa [List.append_assoc] using h

theorem isMember_wsL {w m : List Char} (hw : WsOnly w) (hm : IsMember m) :
    IsMember (w ++ m) := by
  cases hm with
  | mk h1 hk h2 he =>
      have h := IsMember.mk (wsOnly_append hw h1) hk h2 he
      simpa [List.append_assoc] using h

theorem isMember_wsR {m w : List Char} (hm : IsMember m) (hw : WsOnly w) :
    IsMember (m ++ w) := by
  cases hm with
  | mk h1 hk h2 he =>
      have h := IsMember.mk h1 hk h2 (isElement_wsR he hw)
      simpa [List.append_assoc] using h

theorem isMembers_wsL {w m : List Char} (hw : WsOnly w) (hm : IsMembers m) :
    IsMembers (w ++ m) := by
  cases hm with
  | single h => exact IsMembers.single (isMember_wsL hw h)
  | cons h hs =>
      have h2 := IsMembers.cons (isMember_wsL hw h) hs
      simpa [List.append_assoc] using h2

/-- Length-bounded recursion for absorbing trailing whitespace into the last
member of a member list. -/
theorem isMembers_wsR_aux : ∀ (n : Nat), ∀ {m : List Char}, m.length ≤ n →
    IsMembers m → ∀ {w : List Char}, WsOnly w → IsMembers (m ++ w) := by
  intro n
  induction n with
  | zero =>
      intro m hlen hm w hw
      cases hm with
      | single h => exact IsMembers.single (isMember_wsR h hw)
      | cons h hs =>
          exfalso
          simp [List.length_append] at hlen
  | succ k ih =>
      intro m hlen hm w hw
      cases hm with
      | single h => exact IsMembers.single (isMember_wsR h hw)
      | cons h hs =>
          rename_i m1 ms
          have hlen2 : ms.length ≤ k := by
            simp [List.length_append] at hlen
            omega
          have h2 := IsMembers.cons h (ih hlen2 hs hw)
          simpa [List.append_assoc] using h2

theorem isMembers_wsR {m w : List Char} (hm : IsMembers m) (hw : WsOnly w) :
    IsMembers (m ++ w) :=
  isMembers_wsR_aux m.length (le_refl _) hm hw

theorem isElements_wsL {w e : List Char} (hw : WsOnly w) (he : IsElements e) :
    IsElements (w ++ e) := by
  cases he with
  | single h => exact IsElements.single (isElement_wsL hw h)
  | cons h hs =>
      have h2 := IsElements.cons (isElement_wsL hw h) hs
      simpa [List.append_assoc] using h2

/-- Length-bounded recursion for absorbing trailing whitespace into the last
element of an element list. -/
theorem isElements_wsR_aux : ∀ (n : Nat), ∀ {e : List Char}, e.length ≤ n →
    IsElements e → ∀ {w : List Char}, WsOnly w → IsElements (e ++ w) := by
  intro n
  induction n with
  | zero =>
      intro e hlen he w hw
      cases he with
      | single h => exact IsElements.single (isElement_wsR h hw)
      | cons h hs =>
          exfalso
          simp [List.length_append] at hlen
  | succ k ih =>
      intro e hlen he w hw
      cases he with
      | single h => exact IsElements.single (isElement_wsR h hw)
      | cons h hs =>
          rename_i e1 es
          have hlen2 : es.length ≤ k := by
            simp [List.length_append] at hlen
            omega
          have h2 := IsElements.cons h (ih hlen2 hs hw)
          simpa [List.append_assoc] using h2

theorem isElements_wsR {e w : List Char} (he : IsElements e) (hw : WsOnly w) :
    IsElements (e ++ w) :=
  isElements_wsR_aux e.length (le_refl _) he hw

/-! ## C5: per-call emission specifications -/

/-- Emitting a string-valued field from any writer state yields a
grammatical member. -/
theorem memberSpec_vstr (k s : List Char) (w : JsonWriter) :
    MemberSpec k (.vstr s) w := by
  refine ⟨_, IsMember.mk (wsOnly_append (wsOnly_padNl w) (wsOnly_indentFrag w))
    (stringLit_escape k) wsOnly_nil
    (IsElement.mk (wsOnly_spaceFrag w) (IsJson.str (stringLit_escape s)) wsOnly_nil), ?_⟩
  simp only [emitMember]
  rw [JsonWriter.field_str, JsonWriter.key_spec, JsonWriter.value_string_spec]
  simp [List.append_assoc]

/-- Emitting an unsigned-integer field yields a grammatical member. -/
theorem memberSpec_vnum (k : List Char) (n : Nat) (w : JsonWriter) :
    MemberSpec k (.vnum n) w := by
  refine ⟨_, IsMember.mk (wsOnly_append (wsOnly_padNl w) (wsOnly_indentFrag w))
    (stringLit_escape k) wsOnly_nil
    (IsElement.mk (wsOnly_spaceFrag w) (IsJson.num (natRepr_IsNumLit n)) wsOnly_nil), ?_⟩
  simp only [emitMember]
  rw [JsonWriter.field_u64, JsonWriter.key_spec, JsonWriter.value_u64_spec]
  simp [List.append_assoc]

/-- Emitting a boolean field yields a grammatical member. -/
theorem memberSpec_vbool (k : List Char) (b : Bool) (w : JsonWriter) :
    MemberSpec k (.vbool b) w := by
  cases b
  · refine ⟨_, IsMember.mk (wsOnly_append (wsOnly_padNl w) (wsOnly_indentFrag w))
      (stringLit_escape k) wsOnly_nil
      (IsElement.mk (wsOnly_spaceFrag w) IsJson.fls wsOnly_nil), ?_⟩
    simp only [emitMember]
    rw [JsonWriter.field_bool, JsonWriter.key_spec, JsonWriter.value_bool_spec]
    simp [List.append_assoc]
  · refine ⟨_, IsMember.mk (wsOnly_append (wsOnly_padNl w) (wsOnly_indentFrag w))
      (stringLit_escape k) wsOnly_nil
      (IsElement.mk (wsOnly_spaceFrag w) IsJson.tru wsOnly_nil), ?_⟩
    simp only [emitMember]
    rw [JsonWriter.field_bool, JsonWriter.key_spec, JsonWriter.value_bool_spec]
    simp [List.append_assoc]

/-- Emitting a null field yields a grammatical member. -/
theorem memberSpec_vnull (k : List Char) (w : JsonWriter) :
    MemberSpec k .vnull w := by
  refine ⟨_, IsMember.mk (wsOnly_append (wsOnly_padNl w) (wsOnly_indentFrag w))
    (stringLit_escape k) wsOnly_nil
    (IsElement.mk (wsOnly_spaceFrag w) IsJson.nul wsOnly_nil), ?_⟩
  simp only [emitMember]
  rw [JsonWriter.key_spec, JsonWriter.value_null_spec]
  simp [List.append_assoc]

/-- Emitting an object-valued field (`field_object` … `end_field_object`)
yields a grammatical member, given the member-list specification for its
fields. -/
theorem memberSpec_vobj (k : List Char) (fs : List (List Char × JVal))
    (w : JsonWriter) (hrec : ∀ w' : JsonWriter, MembersSpec fs w') :
    MemberSpec k (.vobj fs) w := by
  by_cases hfs : fs = []
  · subst hfs
    refine ⟨_, IsMember.mk (wsOnly_append (wsOnly_padNl w) (wsOnly_indentFrag w))
      (stringLit_escape k) wsOnly_nil
      (IsElement.mk (wsOnly_spaceFrag w)
        (IsJson.objEmpty (wsOnly_append (wsOnly_nlFrag w)
          (wsOnly_append (wsOnly_nlFrag w) (wsOnly_indentAt w.pretty w.indentLevel))))
        wsOnly_nil), ?_⟩
    simp only [emitMember, emitMembers]
    rw [JsonWriter.end_field_object, JsonWriter.field_object_spec,
      JsonWriter.end_object_spec]
    simp [JsonWriter.nlFrag, JsonWriter.indentFrag, JsonWriter.spaceFrag,
      JsonWriter.sepFrag, JsonWriter.padNl, indentAt, List.append_assoc]
  · obtain ⟨ms, hms, hemit⟩ := (hrec (w.field_object k)).2 hfs
    refine ⟨_, IsMember.mk (wsOnly_append (wsOnly_padNl w) (wsOnly_indentFrag w))
      (stringLit_escape k) wsOnly_nil
      (IsElement.mk (wsOnly_spaceFrag w)
        (IsJson.objMembers (isMembers_wsL (wsOnly_nlFrag w)
          (isMembers_wsR hms (wsOnly_append (wsOnly_nlFrag w)
            (wsOnly_indentAt w.pretty w.indentLevel)))))
        wsOnly_nil), ?_⟩
    simp only [emitMember]
    rw [JsonWriter.end_field_object, hemit, JsonWriter.field_object_spec,
      JsonWriter.end_object_spec]
    simp [JsonWriter.nlFrag, JsonWriter.indentFrag, JsonWriter.spaceFrag,
      JsonWriter.sepFrag, JsonWriter.padNl, indentAt, List.append_assoc]

/-- Emitting an array-valued field (`field_array` … `end_field_array`)
yields a grammatical member, given the element-list specification for its
elements. -/
theorem memberSpec_varr (k : List Char) (es : List JVal)
    (w : JsonWriter) (hrec : ∀ w' : JsonWriter, ElemsSpec es w') :
    MemberSpec k (.varr es) w := by
  by_cases hes : es = []
  · subst hes
    refine ⟨_, IsMember.mk (wsOnly_append (wsOnly_padNl w) (wsOnly_indentFrag w))
      (stringLit_escape k) wsOnly_nil
      (IsElement.mk (wsOnly_spaceFrag w)
        (IsJson.arrEmpty (wsOnly_append (wsOnly_nlFrag w)
          (wsOnly_append (wsOnly_nlFrag w) (wsOnly_indentAt w.pretty w.indentLevel))))
        wsOnly_nil), ?_⟩
    simp only [emitMember, emitElems]
    rw [JsonWriter.end_field_array, JsonWriter.field_array_spec,
      JsonWriter.end_array_spec]
    simp [JsonWriter.nlFrag, JsonWriter.indentFrag, JsonWriter.spaceFrag,
      JsonWriter.sepFrag, JsonWriter.padNl, indentAt, List.append_assoc]
  · obtain ⟨els, hels, hemit⟩ := (hrec (w.field_array k)).2 hes
    refine ⟨_, IsMember.mk (wsOnly_append (wsOnly_padNl w) (wsOnly_indentFrag w))
      (stringLit_escape k) wsOnly_nil
      (IsElement.mk (wsOnly_spaceFrag w)
        (IsJson.arrElems (isElements_wsL (wsOnly_nlFrag w)
          (isElements_wsR hels (wsOnly_append (wsOnly_nlFrag w)
            (wsOnly_indentAt w.pretty w.indentLevel)))))
        wsOnly_nil), ?_⟩
    simp only [emitMember]
    rw [JsonWriter.end_field_array, hemit, JsonWriter.field_array_spec,
      JsonWriter.end_array_spec]
    simp [JsonWriter.nlFrag, JsonWriter.indentFrag, JsonWriter.spaceFrag,
      JsonWriter.sepFrag, JsonWriter.padNl, indentAt, List.append_assoc]

/-- Emitting a string array element (`array_string`) from any state yields
the owed separator, whitespace, and a grammatical JSON value. -/
theorem elemSpec_vstr (s : List Char) (w : JsonWriter) : ElemSpec (.vstr s) w := by
  refine ⟨_, IsJson.str (stringLit_escape s), ?_⟩
  simp only [emitElem]
  rw [JsonWriter.array_string_spec]
  simp [List.append_assoc]

/-- Emitting an object array element (`array_object_begin` …
`array_object_end`) yields a grammatical JSON object value. -/
theorem elemSpec_vobj (fs : List (List Char × JVal)) (w : JsonWriter)
    (hrec : ∀ w' : JsonWriter, MembersSpec fs w') : ElemSpec (.vobj fs) w := by
  by_cases hfs : fs = []
  · subst hfs
    refine ⟨_, IsJson.objEmpty (wsOnly_append (wsOnly_nlFrag w)
      (wsOnly_append (wsOnly_nlFrag w) (wsOnly_indentAt w.pretty w.indentLevel))), ?_⟩
    simp only [emitElem, emitMembers]
    rw [JsonWriter.array_object_end, JsonWriter.array_object_begin,
      JsonWriter.begin_object_spec, JsonWriter.end_object_spec]
    simp [JsonWriter.nlFrag, JsonWriter.indentFrag, JsonWriter.sepFrag,
      JsonWriter.padNl, indentAt, List.append_assoc]
  · obtain ⟨ms, hms, hemit⟩ := (hrec w.array_object_begin).2 hfs
    refine ⟨_, IsJson.objMembers (isMembers_wsL (wsOnly_nlFrag w)
      (isMembers_wsR hms (wsOnly_append (wsOnly_nlFrag w)
        (wsOnly_indentAt w.pretty w.indentLevel)))), ?_⟩
    simp only [emitElem]
    rw [JsonWriter.array_object_end, hemit, JsonWriter.array_object_begin,
      JsonWriter.begin_object_spec, JsonWriter.end_object_spec]
    simp [JsonWriter.nlFrag, JsonWriter.indentFrag, JsonWriter.sepFrag,
      JsonWriter.padNl, indentAt, List.append_assoc]

/-- Emitting a nested array element (`begin_array` … `end_array`) yields a
grammatical JSON array value. -/
theorem elemSpec_varr (es : List JVal) (w : JsonWriter)
    (hrec : ∀ w' : JsonWriter, ElemsSpec es w') : ElemSpec (.varr es) w := by
  by_cases hes : es = []
  · subst hes
    refine ⟨_, IsJson.arrEmpty (wsOnly_append (wsOnly_nlFrag w)
      (wsOnly_append (wsOnly_nlFrag w) (wsOnly_indentAt w.pretty w.indentLevel))), ?_⟩
    simp only [emitElem, emitElems]
    rw [JsonWriter.end_array_spec, JsonWriter.begin_array_spec]
    simp [JsonWriter.nlFrag, JsonWriter.indentFrag, JsonWriter.sepFrag,
      JsonWriter.padNl, indentAt, List.append_assoc]
  · obtain ⟨els, hels, hemit⟩ := (hrec w.begin_array).2 hes
    refine ⟨_, IsJson.arrElems (isElements_wsL (wsOnly_nlFrag w)
      (isElements_wsR hels (wsOnly_append (wsOnly_nlFrag w)
        (wsOnly_indentAt w.pretty w.indentLevel)))), ?_⟩
    simp only [emitElem]
    rw [hemit, JsonWriter.begin_array_spec, JsonWriter.end_array_spec]
    simp [JsonWriter.nlFrag, JsonWriter.indentFrag, JsonWriter.sepFrag,
      JsonWriter.padNl, indentAt, List.append_assoc]

/-- The empty member list emits nothing. -/
theorem membersSpec_nil (w : JsonWriter) : MembersSpec [] w :=
  ⟨fun _ => by simp only [emitMembers], fun h => absurd rfl h⟩

/-- One member then a member list emit a comma-joined grammatical member
list. -/
theorem membersSpec_cons (k : List Char) (v : JVal)
    (t : List (List Char × JVal)) (w : JsonWriter)
    (hv : ∀ w' : JsonWriter, MemberSpec k v w')
    (ht : ∀ w' : JsonWriter, MembersSpec t w') :
    MembersSpec ((k, v) :: t) w := by
  refine ⟨fun h => by simp at h, fun _ => ?_⟩
  obtain ⟨m, hm, hemit1⟩ := hv w
  by_cases hte : t = []
  · subst hte
    refine ⟨m, IsMembers.single hm, ?_⟩
    simp only [emitMembers]
    exact hemit1
  · obtain ⟨ms, hms, hemit2⟩ := (ht (emitMember k v w)).2 hte
    refine ⟨m ++ ',' :: ms, IsMembers.cons hm hms, ?_⟩
    simp only [emitMembers]
    rw [hemit2, hemit1]
    simp [JsonWriter.sepFrag, List.append_assoc]

/-- The empty element list emits nothing. -/
theorem elemsSpec_nil (w : JsonWriter) : ElemsSpec [] w :=
  ⟨fun _ => by simp only [emitElems], fun h => absurd rfl h⟩

/-- One element then an element list emit a comma-joined grammatical element
list. -/
theorem elemsSpec_cons (v : JVal) (t : List JVal) (w : JsonWriter)
    (hv : ∀ w' : JsonWriter, ElemSpec v w')
    (ht : ∀ w' : JsonWriter, ElemsSpec t w') :
    ElemsSpec (v :: t) w := by
  refine ⟨fun h => by simp at h, fun _ => ?_⟩
  obtain ⟨core, hcore, hemit1⟩ := hv w
  by_cases hte : t = []
  · subst hte
    refine ⟨w.padNl ++ w.indentFrag ++ core ++ [],
      IsElements.single (IsElement.mk
        (wsOnly_append (wsOnly_padNl w) (wsOnly_indentFrag w)) hcore wsOnly_nil), ?_⟩
    simp only [emitElems]
    rw [hemit1]
    simp [List.append_assoc]
  · obtain ⟨els, hels, hemit2⟩ := (ht (emitElem v w)).2 hte
    refine ⟨(w.padNl ++ w.indentFrag ++ core ++ []) ++ ',' :: els,
      IsElements.cons (IsElement.mk
        (wsOnly_append (wsOnly_padNl w) (wsOnly_indentFrag w)) hcore wsOnly_nil)
        hels, ?_⟩
    simp only [emitElems]
    rw [hemit2, hemit1]
    simp [JsonWriter.sepFrag, List.append_assoc]

/-- Master specification: every emittable value, member list and element
list, at any size bound, satisfies its emission specification from every
writer state. -/
theorem emit_spec (N : Nat) :
    (∀ (v : JVal), sizeOf v ≤ N → valOK v = true →
      ∀ (k : List Char) (w : JsonWriter), MemberSpec k v w) ∧
    (∀ (fs : List (List Char × JVal)), sizeOf fs ≤ N → fieldsOK fs = true →
      ∀ w : JsonWriter, MembersSpec fs w) ∧
    (∀ (v : JVal), sizeOf v ≤ N → elemOK v = true →
      ∀ w : JsonWriter, ElemSpec v w) ∧
    (∀ (es : List JVal), sizeOf es ≤ N → elemsOK es = true →
      ∀ w : JsonWriter, ElemsSpec es w) := by
  induction N using Nat.strong_induction_on with
  | _ N ih =>
    refine ⟨?_, ?_, ?_, ?_⟩
    · intro v hsz hok k w
      cases v with
      | vstr s => exact memberSpec_vstr k s w
      | vnum n => exact memberSpec_vnum k n w
      | vbool b => exact memberSpec_vbool k b w
      | vnull => exact memberSpec_vnull k w
      | vobj fs =>
          have hlt : sizeOf fs < N := by
            simp at hsz
            omega
          have hok2 : fieldsOK fs = true := by simpa [valOK] using hok
          exact memberSpec_vobj k fs w
            (fun w' => (ih (sizeOf fs) hlt).2.1 fs (le_refl _) hok2 w')
      | varr es =>
          have hlt : sizeOf es < N := by
            simp at hsz
            omega
          have hok2 : elemsOK es = true := by simpa [valOK] using hok
          exact memberSpec_varr k es w
            (fun w' => (ih (sizeOf es) hlt).2.2.2 es (le_refl _) hok2 w')
    · intro fs hsz hok w
      cases fs with
      | nil => exact membersSpec_nil w
      | cons kv t =>
          obtain ⟨k, v⟩ := kv
          have h1 : sizeOf v < N := by
            simp at hsz
            omega
          have h2 : sizeOf t < N := by
            simp at hsz
            omega
          have hok2 : valOK v = true ∧ fieldsOK t = true := by
            simpa [fieldsOK, Bool.and_eq_true] using hok
          exact membersSpec_cons k v t w
            (fun w' => (ih (sizeOf v) h1).1 v (le_refl _) hok2.1 k w')
            (fun w' => (ih (sizeOf t) h2).2.1 t (le_refl _) hok2.2 w')
    · intro v hsz hok w
      cases v with
      | vstr s => exact elemSpec_vstr s w
      | vnum n => simp [elemOK] at hok
      | vbool b => simp [elemOK] at hok
      | vnull => simp [elemOK] at hok
      | vobj fs =>
          have hlt : sizeOf fs < N := by
            simp at hsz
            omega
          have hok2 : fieldsOK fs = true := by simpa [elemOK] using hok
          exact elemSpec_vobj fs w
            (fun w' => (ih (sizeOf fs) hlt).2.1 fs (le_refl _) hok2 w')
      | varr es =>
          have hlt : sizeOf es < N := by
            simp at hsz
            omega
          have hok2 : elemsOK es = true := by simpa [elemOK] using hok
          exact elemSpec_varr es w
            (fun w' => (ih (sizeOf es) hlt).2.2.2 es (le_refl _) hok2 w')
    · intro es hsz hok w
      cases es with
      | nil => exact elemsSpec_nil w
      | cons v t =>
          have h1 : sizeOf v < N := by
            simp at hsz
            omega
          have h2 : sizeOf t < N := by
            simp at hsz
            omega
          have hok2 : elemOK v = true ∧ elemsOK t = true := by
            simpa [elemsOK, Bool.and_eq_true] using hok
          exact elemsSpec_cons v t w
            (fun w' => (ih (sizeOf v) h1).2.2.1 v (le_refl _) hok2.1 w')
            (fun w' => (ih (sizeOf t) h2).2.2.2 t (le_refl _) hok2.2 w')

/-- C5: every properly nested sequence of writer calls — an object or array
document built from `begin`/`end` pairs, `key` followed by exactly one
value, the `field_*` helpers, and the element-position calls — produces
syntactically valid JSON (balanced delimiters, no trailing or missing
commas), in both compact and pretty mode. -/
theorem C5_writer_emits_valid_json (pretty : Bool) (v : JVal)
    (h : elemOK v = true) :
    IsJson ((emitElem v (JsonWriter.new pretty)).output) := by
  obtain ⟨core, hcore, hemit⟩ :=
    (emit_spec (sizeOf v)).2.2.1 v (le_refl _) h (JsonWriter.new pretty)
  rw [hemit]
  simpa [JsonWriter.new, JsonWriter.sepFrag, JsonWriter.padNl,
    JsonWriter.indentFrag, indentAt] using hcore

/-- C5 (witness): a concrete mixed document in pretty mode. -/
theorem C5_witness :
    elemOK (JVal.vobj [(['a'], .vstr ['x']), (['n'], .vnum 3),
      (['b'], .vbool true), (['z'], .vnull), (['o'], .vobj []),
      (['l'], .varr [.vstr ['y']])]) = true ∧
    IsJson ((emitElem (JVal.vobj [(['a'], .vstr ['x']), (['n'], .vnum 3),
      (['b'], .vbool true), (['z'], .vnull), (['o'], .vobj []),
      (['l'], .varr [.vstr ['y']])]) (JsonWriter.new true)).output) :=
  ⟨by decide, C5_writer_emits_valid_json true _ (by decide)⟩
